import Mathlib

/-!
Shallow embedding of the `acls` Go library (POSIX ACL management):
data model, binary wire codec, entry-set mutation and equality.

Bytes are modelled as `Nat` values (< 256 where a claim needs it);
machine integers (`uint16`, `uint32`) are `Nat` with explicit bounds in
theorem hypotheses where overflow could matter.  Go methods that mutate
their receiver are modelled as functions returning the updated value
(and the Go `error` result as an `Option`/`Except` component).
-/

/-- Little-endian 16-bit decode, `binary.LittleEndian.Uint16`:
`b0 | b1 <<< 8`; on byte values (< 256) the or coincides with addition. -/
def leU16 (b0 b1 : Nat) : Nat := b0 + 256 * b1

/-- Little-endian 32-bit decode, `binary.LittleEndian.Uint32`. -/
def leU32 (b0 b1 b2 b3 : Nat) : Nat := b0 + 256 * b1 + 65536 * b2 + 16777216 * b3

/-- Little-endian byte serialization of a `uint16` (`binary.Write`). -/
def leBytes16 (n : Nat) : List Nat := [n % 256, n / 256 % 256]

/-- Little-endian byte serialization of a `uint32` (`binary.Write`). -/
def leBytes32 (n : Nat) : List Nat := [n % 256, n / 256 % 256, n / 65536 % 256, n / 16777216 % 256]

/-! Tag constants from the source. -/

def TAG_ACL_UNDEFINED_FIELD : Nat := 0x0
def TAG_ACL_USER_OBJ : Nat := 0x1
def TAG_ACL_USER : Nat := 0x2
def TAG_ACL_GROUP_OBJ : Nat := 0x4
def TAG_ACL_GROUP : Nat := 0x8
def TAG_ACL_MASK : Nat := 0x10
def TAG_ACL_OTHER : Nat := 0x20
def TAG_ACL_EVERYONE : Nat := 0x40

/-! Permission bit constants from the source. -/

def PermRead : Nat := 0x4
def PermWrite : Nat := 0x2
def PermExecute : Nat := 0x1
def PermAll : Nat := 0x7
def PermNone : Nat := 0x0

/-- `ACLEntry`: tag (uint16), perm (uint16), id (uint32) — field order as
in the struct declaration. -/
structure ACLEntry where
  tag : Nat
  perm : Nat
  id : Nat
deriving DecidableEq, Repr

/-- `NewEntry(tag, id, perm)`. -/
def NewEntry (tag : Nat) (id : Nat) (perm : Nat) : ACLEntry :=
  { tag := tag, perm := perm, id := id }

/-- `ACLEntry.equalTagID`: same tag and id; perm not considered. -/
def ACLEntry.equalTagID (a e : ACLEntry) : Bool :=
  if e.tag != a.tag then false
  else if e.id != a.id then false
  else true

/-- `ACLEntry.Equal`: id, tag and perm all equal. -/
def ACLEntry.Equal (a e : ACLEntry) : Bool :=
  a.id == e.id && a.tag == e.tag && a.perm == e.perm

/-- Error values produced by the two parse functions:
`fmt.Errorf("expecting at least a 32 bit header, got %d", len(b)*4)`
(with its `len(b)*4` payload) and `fmt.Errorf("malformed data")`. -/
inductive ParseErr where
  | truncatedHeader (got : Nat)
  | malformedData
deriving DecidableEq, Repr

/-- `ACLEntry.parse`: errors if fewer than 8 bytes remain, otherwise
reads tag from bytes 0..2, perm from 2..4, id from 4..8 (little endian)
and returns the remainder after the consumed 8 bytes. -/
def ACLEntry.parse (b : List Nat) : Except ParseErr (ACLEntry × List Nat) :=
  if b.length < 8 then .error .malformedData
  else .ok ({ tag := leU16 (b.getD 0 0) (b.getD 1 0),
              perm := leU16 (b.getD 2 0) (b.getD 3 0),
              id := leU32 (b.getD 4 0) (b.getD 5 0) (b.getD 6 0) (b.getD 7 0) },
            b.drop 8)

/-- `ACLEntry.ToByteSlice`: appends tag, perm, id in little-endian order. -/
def ACLEntry.ToByteSlice (a : ACLEntry) : List Nat :=
  leBytes16 a.tag ++ leBytes16 a.perm ++ leBytes32 a.id

/-- `ACL`: a format version (uint32) and the entry list. -/
structure ACL where
  Version : Nat
  Entries : List ACLEntry
deriving DecidableEq, Repr

/-- The comparison key used by `ACL.sort`: ordering entries by tag. -/
def tagLE (x y : ACLEntry) : Prop := x.tag ≤ y.tag

instance : DecidableRel tagLE := fun x y => Nat.decLe x.tag y.tag

instance : IsTotal ACLEntry tagLE := ⟨fun a b => Nat.le_total a.tag b.tag⟩

instance : IsTrans ACLEntry tagLE := ⟨fun _ _ _ h1 h2 => Nat.le_trans h1 h2⟩

/-- `ACL.sort`: `sort.Slice(a.Entries, by tag)`, modelled as the stable
insertion sort that Go's sort runs on short slices (the sort key is the
tag alone).  `sort.Slice` itself is not guaranteed stable for longer
slices; every property proved below about `sort` holds for any
deterministic tag-sort. -/
def ACL.sort (a : ACL) : ACL :=
  { a with Entries := a.Entries.insertionSort tagLE }

/-- `ACL.ToByteSlice`: sorts the entries (in place — the second component
is the mutated receiver), then writes the 4-byte little-endian version
followed by each entry's 8-byte record. -/
def ACL.ToByteSlice (a : ACL) : List Nat × ACL :=
  let a' := a.sort
  (leBytes32 a'.Version ++ (a'.Entries.map ACLEntry.ToByteSlice).flatten, a')

/-- `ACL.EntryExists`: index of the first entry with the same tag and id,
or -1 when absent. -/
def ACL.EntryExists (a : ACL) (e : ACLEntry) : Int :=
  match a.Entries.findIdx? (fun entry => entry.equalTagID e) with
  | some pos => (pos : Int)
  | none => -1

/-- `ACL.deleteEntryPos`: removes the entry at a position, returning the
removed entry (the Go code only calls this with a valid index). -/
def ACL.deleteEntryPos (a : ACL) (pos : Nat) : ACL × Option ACLEntry :=
  ({ a with Entries := a.Entries.take pos ++ a.Entries.drop (pos + 1) },
   a.Entries.get? pos)

/-- `ACL.DeleteEntry`: removes the entry with the same tag and id when it
exists and returns it. -/
def ACL.DeleteEntry (a : ACL) (e : ACLEntry) : ACL × Option ACLEntry :=
  let pos := a.EntryExists e
  if 0 ≤ pos then a.deleteEntryPos pos.toNat else (a, none)

/-- `ACL.AddEntry`: deletes any entry with the same tag and id, then
appends the given entry; the Go `error` result (always `nil`) is the
second component. -/
def ACL.AddEntry (a : ACL) (e : ACLEntry) : ACL × Option String :=
  let d := a.DeleteEntry e
  let a1 := d.1
  ({ a1 with Entries := a1.Entries ++ [e] }, none)

/-- The index-wise comparison loop of `ACL.Equal` (`for id, val := range
a.Entries { if !val.Equal(e.Entries[id]) ... }`); only reached with
lists of equal length. -/
def entriesPointwiseEq : List ACLEntry → List ACLEntry → Bool
  | x :: xs, y :: ys => x.Equal y && entriesPointwiseEq xs ys
  | _, _ => true

/-- `ACL.Equal`: false immediately when lengths or versions differ;
otherwise sorts both receivers in place (the mutated values are the
second and third components) and compares index-wise. -/
def ACL.Equal (a e : ACL) : Bool × ACL × ACL :=
  if !(a.Entries.length == e.Entries.length && a.Version == e.Version) then (false, a, e)
  else
    let a' := a.sort
    let e' := e.sort
    (entriesPointwiseEq a'.Entries e'.Entries, a', e')

/-- The entry-reading loop of `ACL.parse`: a do-while that always
attempts at least one `ACLEntry.parse`, appends each parsed entry, and
stops when the remainder is empty. -/
def parseEntriesLoop (a : ACL) (b : List Nat) : Option ParseErr × ACL :=
  match h : ACLEntry.parse b with
  | .error err => (some err, a)
  | .ok (e, rest) =>
    let a' := { a with Entries := a.Entries ++ [e] }
    if rest.length = 0 then (none, a') else parseEntriesLoop a' rest
termination_by b.length
decreasing_by
  simp only [ACLEntry.parse] at h
  split at h
  · simp at h
  · simp only [Except.ok.injEq, Prod.mk.injEq] at h
    obtain ⟨-, h2⟩ := h
    subst h2
    simp only [List.length_drop]
    omega

/-- `ACL.parse`: errors if fewer than 4 bytes; otherwise sets the version
from the little-endian header and runs the entry loop.  The mutated
receiver is returned alongside the error so that partial mutation on
failure is observable. -/
def ACL.parse (a : ACL) (b : List Nat) : Option ParseErr × ACL :=
  if b.length < 4 then (some (.truncatedHeader (b.length * 4)), a)
  else
    let a1 := { a with Version := leU32 (b.getD 0 0) (b.getD 1 0) (b.getD 2 0) (b.getD 3 0) }
    parseEntriesLoop a1 (b.drop 4)

/-- `ACL.bootstrapACL` with the stat results (owner uid, owner gid,
permission mode bits) passed explicitly; appends the four synthesized
entries, `math.MaxUint32` being the mask/other sentinel id. -/
def ACL.bootstrapACL (a : ACL) (uid gid mode : Nat) : ACL :=
  let UserEntry := NewEntry TAG_ACL_USER_OBJ uid ((mode >>> 6) &&& 7)
  let GroupEntry := NewEntry TAG_ACL_GROUP_OBJ gid ((mode >>> 3) &&& 7)
  let MaskEntry := NewEntry TAG_ACL_MASK 4294967295 7
  let OtherEntry := NewEntry TAG_ACL_OTHER 4294967295 (mode &&& 7)
  { a with Entries := a.Entries ++ [UserEntry, GroupEntry, OtherEntry, MaskEntry] }

/-- `PermUintToString`: three characters, `r`/`w`/`x` for granted bits,
`-` otherwise. -/
def PermUintToString (p : Nat) : String :=
  let s0 := if p &&& 0x4 == PermRead then "r" else "-"
  let s1 := if p &&& 0x2 == PermWrite then "w" else "-"
  let s2 := if p &&& 0x1 == PermExecute then "x" else "-"
  s0 ++ s1 ++ s2

/-- `PermStringToUint`: errors unless the string has exactly 3
characters; `r`/`w`/`x` at their positions set the bits, any other
character leaves the bit clear. -/
def PermStringToUint (s : String) : Except String Nat :=
  if s.length ≠ 3 then .error "invalid permission string length"
  else
    let p0 : Nat := 0
    let p1 := if s.data.getD 0 ' ' == 'r' then p0 ||| PermRead else p0
    let p2 := if s.data.getD 1 ' ' == 'w' then p1 ||| PermWrite else p1
    let p3 := if s.data.getD 2 ' ' == 'x' then p2 ||| PermExecute else p2
    .ok p3

/-- Decoding of consecutive complete 8-byte records, used to state what
the parse loop appends (each record laid out as in `ACLEntry.parse`);
an incomplete trailing record yields nothing. -/
def decodeChunks : List Nat → List ACLEntry
  | b0 :: b1 :: b2 :: b3 :: b4 :: b5 :: b6 :: b7 :: rest =>
    { tag := leU16 b0 b1, perm := leU16 b2 b3, id := leU32 b4 b5 b6 b7 } :: decodeChunks rest
  | _ => []

/-- A sequence of `AddEntry` calls starting from a given ACL. -/
def addSeq (a : ACL) (es : List ACLEntry) : ACL :=
  es.foldl (fun acc e => (acc.AddEntry e).1) a

/-- Field bounds of a well-formed entry (`uint16` tag and perm, `uint32` id). -/
def ACLEntry.wf (e : ACLEntry) : Prop :=
  e.tag < 65536 ∧ e.perm < 65536 ∧ e.id < 4294967296

instance : DecidablePred ACLEntry.wf := fun e =>
  decidable_of_iff (e.tag < 65536 ∧ e.perm < 65536 ∧ e.id < 4294967296) Iff.rfl

/-- The uniqueness invariant maintained by AddEntry: no two entries of the
list share a (tag, id) key. -/
def KeyUnique (l : List ACLEntry) : Prop :=
  List.Pairwise (fun x y => x.equalTagID y = false) l

theorem decodeChunks_eq_nil (b : List Nat) (h : b.length < 8) : decodeChunks b = [] := by
  rcases b with _|⟨a0,_|⟨a1,_|⟨a2,_|⟨a3,_|⟨a4,_|⟨a5,_|⟨a6,_|⟨a7,t⟩⟩⟩⟩⟩⟩⟩⟩ <;>
    first
      | rfl
      | (simp only [List.length_cons] at h; omega)

theorem parse_b_shape (b : List Nat) (e : ACLEntry) (rest : List Nat)
    (h : ACLEntry.parse b = Except.ok (e, rest)) :
    ∃ b0 b1 b2 b3 b4 b5 b6 b7,
      b = b0 :: b1 :: b2 :: b3 :: b4 :: b5 :: b6 :: b7 :: rest ∧
      e = { tag := leU16 b0 b1, perm := leU16 b2 b3, id := leU32 b4 b5 b6 b7 } := by
  rcases b with _|⟨b0,_|⟨b1,_|⟨b2,_|⟨b3,_|⟨b4,_|⟨b5,_|⟨b6,_|⟨b7,t⟩⟩⟩⟩⟩⟩⟩⟩ <;>
    simp only [ACLEntry.parse, List.length_cons, List.length_nil] at h
  case cons.cons.cons.cons.cons.cons.cons.cons =>
    rw [if_neg (by omega)] at h
    simp only [Except.ok.injEq, Prod.mk.injEq] at h
    obtain ⟨he, hr⟩ := h
    exact ⟨b0, b1, b2, b3, b4, b5, b6, b7, by simp_all⟩
  all_goals (rw [if_pos (by omega)] at h; exact absurd h (by simp))

theorem parseEntriesLoop_eq (a : ACL) (b : List Nat) :
    parseEntriesLoop a b =
      (if b.length ≠ 0 ∧ b.length % 8 = 0 then none else some ParseErr.malformedData,
       { a with Entries := a.Entries ++ decodeChunks b }) := by
  induction a, b using parseEntriesLoop.induct with
  | case1 a b err h =>
    rw [parseEntriesLoop.eq_def, h]
    unfold ACLEntry.parse at h
    split at h
    · next hlen =>
      simp only [Except.error.injEq] at h
      subst h
      rw [decodeChunks_eq_nil b hlen, if_neg (by omega)]
      simp
    · exact absurd h (by simp)
  | case2 a b e rest h hr =>
    obtain ⟨b0, b1, b2, b3, b4, b5, b6, b7, rfl, rfl⟩ := parse_b_shape b e rest h
    rw [parseEntriesLoop.eq_def, h]
    have hrest : rest = [] := List.length_eq_zero.mp hr
    subst hrest
    simp [decodeChunks]
  | case3 a b e rest h a' hne ih =>
    obtain ⟨b0, b1, b2, b3, b4, b5, b6, b7, rfl, rfl⟩ := parse_b_shape b e rest h
    rw [parseEntriesLoop.eq_def, h]
    simp only [hne, if_neg, ite_false]
    rw [ih]
    simp only [decodeChunks, List.length_cons, Prod.mk.injEq]
    refine ⟨?_, by simp⟩
    split_ifs with h1 h2 <;> first | rfl | omega

theorem decodeChunks_length (b : List Nat) : (decodeChunks b).length = b.length / 8 := by
  induction b using decodeChunks.induct with
  | case1 b0 b1 b2 b3 b4 b5 b6 b7 rest ih =>
    simp only [decodeChunks, List.length_cons, ih]
    omega
  | case2 b h =>
    have hlen : b.length < 8 := by
      rcases b with _|⟨b0,_|⟨b1,_|⟨b2,_|⟨b3,_|⟨b4,_|⟨b5,_|⟨b6,_|⟨b7,t⟩⟩⟩⟩⟩⟩⟩⟩
      · simp
      · simp
      · simp
      · simp
      · simp
      · simp
      · simp
      · simp
      · exact (h b0 b1 b2 b3 b4 b5 b6 b7 t rfl).elim
    rw [decodeChunks_eq_nil b hlen]
    simp only [List.length_nil]
    omega

theorem ACLEntry.parse_toByteSlice_append (e : ACLEntry) (rest : List Nat) (h : e.wf) :
    ACLEntry.parse (e.ToByteSlice ++ rest) = Except.ok (e, rest) := by
  obtain ⟨t, p, i⟩ := e
  obtain ⟨h1, h2, h3⟩ := h
  simp only [ACLEntry.ToByteSlice, leBytes16, leBytes32, List.cons_append, List.nil_append,
    ACLEntry.parse, List.length_cons]
  rw [if_neg (by omega)]
  dsimp only at h1 h2 h3
  simp only [List.getD_cons_zero, List.getD_cons_succ, List.drop_succ_cons, List.drop_zero,
    Except.ok.injEq, Prod.mk.injEq, ACLEntry.mk.injEq, leU16, leU32]
  refine ⟨⟨?_, ?_, ?_⟩, ?_⟩ <;> first | omega | simp

theorem encoded_length (es : List ACLEntry) :
    ((es.map ACLEntry.ToByteSlice).flatten).length = 8 * es.length := by
  induction es with
  | nil => rfl
  | cons e es ih =>
    simp only [List.map_cons, List.flatten_cons, List.length_append, ih,
      ACLEntry.ToByteSlice, leBytes16, leBytes32, List.length_append, List.length_cons,
      List.length_nil, List.length_cons]
    omega

theorem parseEntriesLoop_encoded (es : List ACLEntry) (hne : es ≠ []) (hwf : ∀ e ∈ es, e.wf) :
    ∀ a, parseEntriesLoop a ((es.map ACLEntry.ToByteSlice).flatten) =
      (none, { a with Entries := a.Entries ++ es }) := by
  induction es with
  | nil => exact (hne rfl).elim
  | cons e es ih =>
    intro a
    simp only [List.map_cons, List.flatten_cons]
    have hp := ACLEntry.parse_toByteSlice_append e ((es.map ACLEntry.ToByteSlice).flatten)
      (hwf e (by simp))
    rw [parseEntriesLoop.eq_def, hp]
    dsimp only
    rcases es with _ | ⟨f, fs⟩
    · simp
    · have hlen : (((f :: fs).map ACLEntry.ToByteSlice).flatten).length = 8 * (f :: fs).length :=
        encoded_length _
      rw [if_neg (by simp only [hlen, List.length_cons]; omega)]
      rw [ih (by simp) (fun x hx => hwf x (by simp [hx]))]
      simp

theorem entriesPointwiseEq_refl (l : List ACLEntry) : entriesPointwiseEq l l = true := by
  induction l with
  | nil => rfl
  | cons x xs ih => simp [entriesPointwiseEq, ACLEntry.Equal, ih]

theorem insertionSort_idem (l : List ACLEntry) :
    (l.insertionSort tagLE).insertionSort tagLE = l.insertionSort tagLE :=
  (List.sorted_insertionSort tagLE l).insertionSort_eq

/-- C1, amended round-trip: serializing any ACL with at least one entry and
in-range fields, then parsing the bytes into a fresh ACL, succeeds; the result
is Equal-true to the original, carries the same version, and the bytes list
the entries in ascending-tag order. -/
theorem acl_serialize_parse_roundtrip (a : ACL) (h0 : a.Entries ≠ [])
    (hv : a.Version < 4294967296) (hwf : ∀ e ∈ a.Entries, e.wf) :
    (ACL.parse { Version := 0, Entries := [] } a.ToByteSlice.1).1 = none ∧
    (ACL.parse { Version := 0, Entries := [] } a.ToByteSlice.1).2 =
      { Version := a.Version, Entries := a.Entries.insertionSort tagLE } ∧
    (ACL.Equal a (ACL.parse { Version := 0, Entries := [] } a.ToByteSlice.1).2).1 = true ∧
    a.ToByteSlice.1 =
      leBytes32 a.Version ++ ((a.Entries.insertionSort tagLE).map ACLEntry.ToByteSlice).flatten ∧
    List.Pairwise tagLE (a.Entries.insertionSort tagLE) := by
  have hbytes : a.ToByteSlice.1 =
      leBytes32 a.Version ++ ((a.Entries.insertionSort tagLE).map ACLEntry.ToByteSlice).flatten := rfl
  have hSne : a.Entries.insertionSort tagLE ≠ [] := by
    intro hnil
    apply h0
    have := List.length_insertionSort tagLE a.Entries
    rw [hnil] at this
    exact List.length_eq_zero.mp this.symm
  have hSwf : ∀ e ∈ a.Entries.insertionSort tagLE, e.wf := by
    intro e he
    exact hwf e ((List.mem_insertionSort tagLE).mp he)
  have hparse : ACL.parse { Version := 0, Entries := [] } a.ToByteSlice.1 =
      (none, { Version := a.Version, Entries := a.Entries.insertionSort tagLE }) := by
    rw [hbytes]
    simp only [ACL.parse, leBytes32, List.cons_append, List.nil_append, List.length_cons]
    rw [if_neg (by omega)]
    simp only [List.getD_cons_zero, List.getD_cons_succ, List.drop_succ_cons, List.drop_zero]
    rw [parseEntriesLoop_encoded _ hSne hSwf]
    simp only [Prod.mk.injEq, ACL.mk.injEq, List.nil_append, leU32, and_true, true_and]
    omega
  refine ⟨by rw [hparse], by rw [hparse], ?_, hbytes, List.sorted_insertionSort tagLE a.Entries⟩
  rw [hparse]
  simp only [ACL.Equal, ACL.sort, List.length_insertionSort, beq_self_eq_true, Bool.and_self,
    Bool.not_true, Bool.false_eq_true, if_false, insertionSort_idem]
  exact entriesPointwiseEq_refl _

/-- C1 counterexample: the zero-entry ACL does not round-trip — its
serialization is the bare 4-byte header, which parse rejects. -/
theorem acl_roundtrip_zero_entries_fails :
    (ACL.parse { Version := 0, Entries := [] }
      (ACL.ToByteSlice { Version := 2, Entries := [] }).1).1 = some ParseErr.malformedData := by
  have hb : (ACL.ToByteSlice { Version := 2, Entries := [] }).1 = [2, 0, 0, 0] := by decide
  rw [hb]
  simp only [ACL.parse, List.length_cons, List.length_nil]
  rw [if_neg (by omega), parseEntriesLoop_eq]
  simp [decodeChunks]

/-- C2 counterexample: a 4-byte buffer (header, zero records) fails. -/
theorem acl_parse_header_only_fails :
    ACL.parse { Version := 0, Entries := [] } [2, 0, 0, 0] =
      (some ParseErr.malformedData, { Version := 2, Entries := [] }) := by
  simp only [ACL.parse, List.length_cons, List.length_nil]
  rw [if_neg (by omega), parseEntriesLoop_eq]
  simp [decodeChunks, leU32]

/-- C2, amended: a buffer of length 4 + 8k with k at least 1 parses
successfully, reading the little-endian version and k records in order. -/
theorem acl_parse_records (a0 : ACL) (k : Nat) (hk : 1 ≤ k) (b : List Nat)
    (hb : b.length = 4 + 8 * k) :
    (ACL.parse a0 b).1 = none ∧
    (ACL.parse a0 b).2.Version = leU32 (b.getD 0 0) (b.getD 1 0) (b.getD 2 0) (b.getD 3 0) ∧
    (ACL.parse a0 b).2.Entries = a0.Entries ++ decodeChunks (b.drop 4) ∧
    (decodeChunks (b.drop 4)).length = k := by
  have hd : (b.drop 4).length = 8 * k := by
    simp only [List.length_drop, hb]
    omega
  simp only [ACL.parse]
  rw [if_neg (by omega), parseEntriesLoop_eq, if_pos (by simp only [hd]; omega)]
  refine ⟨rfl, rfl, rfl, ?_⟩
  rw [decodeChunks_length, hd]
  omega

/-- C5: parse fails with the truncated-header error exactly on buffers
shorter than 4 bytes, and with the malformed-data error on any buffer of
length at least 4 whose length minus 4 is not a multiple of 8. -/
theorem acl_parse_error_conditions (a0 : ACL) (b : List Nat) :
    ((∃ m, (ACL.parse a0 b).1 = some (ParseErr.truncatedHeader m)) ↔ b.length < 4) ∧
    (4 ≤ b.length → (b.length - 4) % 8 ≠ 0 →
      (ACL.parse a0 b).1 = some ParseErr.malformedData) := by
  constructor
  · constructor
    · rintro ⟨m, hm⟩
      by_contra h4
      simp only [ACL.parse] at hm
      rw [if_neg h4, parseEntriesLoop_eq] at hm
      dsimp only at hm
      split at hm
      · exact absurd hm (by simp)
      · exact absurd hm (by simp)
    · intro h4
      refine ⟨b.length * 4, ?_⟩
      simp only [ACL.parse]
      rw [if_pos h4]
  · intro h4 h8
    simp only [ACL.parse]
    rw [if_neg (by omega), parseEntriesLoop_eq]
    have hd : (b.drop 4).length = b.length - 4 := by simp
    dsimp only
    rw [if_neg (by simp only [hd]; omega)]

/-- C10: on a malformed tail, parse has already set the version from the
header and appended every complete 8-byte record before failing. -/
theorem acl_parse_partial_mutation (a0 : ACL) (b : List Nat)
    (h4 : 4 ≤ b.length) (h8 : (b.length - 4) % 8 ≠ 0) :
    (ACL.parse a0 b).1 = some ParseErr.malformedData ∧
    (ACL.parse a0 b).2.Version = leU32 (b.getD 0 0) (b.getD 1 0) (b.getD 2 0) (b.getD 3 0) ∧
    (ACL.parse a0 b).2.Entries = a0.Entries ++ decodeChunks (b.drop 4) ∧
    (decodeChunks (b.drop 4)).length = (b.length - 4) / 8 := by
  have hd : (b.drop 4).length = b.length - 4 := by simp
  simp only [ACL.parse]
  rw [if_neg (by omega), parseEntriesLoop_eq, if_neg (by simp only [hd]; omega)]
  refine ⟨rfl, rfl, rfl, ?_⟩
  rw [decodeChunks_length, hd]

theorem acl_serialize_parse_roundtrip_witness :
    (ACL.Equal { Version := 2, Entries := [NewEntry 8 5558 7] }
      (ACL.parse { Version := 0, Entries := [] }
        (ACL.ToByteSlice { Version := 2, Entries := [NewEntry 8 5558 7] }).1).2).1 = true :=
  (acl_serialize_parse_roundtrip { Version := 2, Entries := [NewEntry 8 5558 7] }
    (by decide) (by decide) (by decide)).2.2.1

theorem acl_parse_records_witness :
    (ACL.parse { Version := 0, Entries := [] }
      [2, 0, 0, 0, 1, 0, 7, 0, 255, 255, 255, 255]).1 = none :=
  (acl_parse_records { Version := 0, Entries := [] } 1 (by decide)
    [2, 0, 0, 0, 1, 0, 7, 0, 255, 255, 255, 255] (by decide)).1

theorem acl_parse_error_conditions_witness :
    (ACL.parse { Version := 0, Entries := [] } [2, 0, 0, 0, 1, 0, 7, 0, 255]).1 =
      some ParseErr.malformedData ∧
    (∃ m, (ACL.parse { Version := 0, Entries := [] } [2, 0]).1 =
      some (ParseErr.truncatedHeader m)) :=
  ⟨(acl_parse_error_conditions { Version := 0, Entries := [] }
      [2, 0, 0, 0, 1, 0, 7, 0, 255]).2 (by decide) (by decide),
   (acl_parse_error_conditions { Version := 0, Entries := [] } [2, 0]).1.mpr (by decide)⟩

theorem acl_parse_partial_mutation_witness :
    (ACL.parse { Version := 9, Entries := [NewEntry 2 77 1] }
      [2, 0, 0, 0, 1, 0, 7, 0, 255, 255, 255, 255, 5, 5, 5]).1 = some ParseErr.malformedData ∧
    (ACL.parse { Version := 9, Entries := [NewEntry 2 77 1] }
      [2, 0, 0, 0, 1, 0, 7, 0, 255, 255, 255, 255, 5, 5, 5]).2.Version = 2 ∧
    (ACL.parse { Version := 9, Entries := [NewEntry 2 77 1] }
      [2, 0, 0, 0, 1, 0, 7, 0, 255, 255, 255, 255, 5, 5, 5]).2.Entries =
      [NewEntry 2 77 1, NewEntry 1 4294967295 7] := by
  have h := acl_parse_partial_mutation { Version := 9, Entries := [NewEntry 2 77 1] }
    [2, 0, 0, 0, 1, 0, 7, 0, 255, 255, 255, 255, 5, 5, 5] (by decide) (by decide)
  exact ⟨h.1, h.2.1, h.2.2.1⟩

theorem ACLEntry.equalTagID_eq_true_iff (x y : ACLEntry) :
    x.equalTagID y = true ↔ (y.tag = x.tag ∧ y.id = x.id) := by
  unfold ACLEntry.equalTagID
  split_ifs with h1 h2 <;> simp_all

theorem ACLEntry.equalTagID_refl (e : ACLEntry) : e.equalTagID e = true := by
  simp [ACLEntry.equalTagID_eq_true_iff]

theorem take_drop_findIdx_eq_eraseP (p : ACLEntry → Bool) (l : List ACLEntry) :
    (match l.findIdx? p with
     | some n => l.take n ++ l.drop (n + 1)
     | none => l) = l.eraseP p := by
  induction l with
  | nil => rfl
  | cons x xs ih =>
    by_cases hp : p x
    · simp [List.findIdx?_cons, hp, List.eraseP_cons_of_pos]
    · have hstep : (x :: xs).findIdx? p = (xs.findIdx? p).map (fun k => k + 1) := by
        simp [List.findIdx?_cons, hp]
      rw [List.eraseP_cons_of_neg (by simp [hp]), hstep, ← ih]
      cases hfx : xs.findIdx? p with
      | none => simp
      | some n => simp [List.take_succ_cons, List.drop_succ_cons]

theorem DeleteEntry_entries (a : ACL) (e : ACLEntry) :
    (a.DeleteEntry e).1.Entries = a.Entries.eraseP (fun x => x.equalTagID e) := by
  unfold ACL.DeleteEntry ACL.EntryExists ACL.deleteEntryPos
  dsimp only
  cases hfx : a.Entries.findIdx? (fun x => x.equalTagID e) with
  | none =>
    rw [List.eraseP_of_forall_not (by simpa using List.findIdx?_eq_none_iff.mp hfx)]
    simp
  | some n =>
    have hb := take_drop_findIdx_eq_eraseP (fun x => x.equalTagID e) a.Entries
    rw [hfx] at hb
    simp only at hb
    rw [if_pos (by exact Int.natCast_nonneg n)]
    simpa using hb

theorem AddEntry_entries (a : ACL) (e : ACLEntry) :
    (a.AddEntry e).1.Entries = a.Entries.eraseP (fun x => x.equalTagID e) ++ [e] := by
  unfold ACL.AddEntry
  dsimp only
  rw [DeleteEntry_entries]

theorem no_match_in_eraseP (e : ACLEntry) (l : List ACLEntry) (hu : KeyUnique l) :
    ∀ x ∈ l.eraseP (fun y => y.equalTagID e), x.equalTagID e = false := by
  induction l with
  | nil => intro x hx; simp at hx
  | cons a l ih =>
    intro x hx
    by_cases hp : a.equalTagID e
    · rw [List.eraseP_cons_of_pos (by simpa using hp)] at hx
      have hax : a.equalTagID x = false := (List.pairwise_cons.mp hu).1 x hx
      by_contra hxe
      rw [Bool.not_eq_false] at hxe
      rw [ACLEntry.equalTagID_eq_true_iff] at hp hxe
      have htr : a.equalTagID x = true :=
        (ACLEntry.equalTagID_eq_true_iff a x).mpr ⟨hxe.1.symm.trans hp.1, hxe.2.symm.trans hp.2⟩
      rw [htr] at hax
      exact absurd hax (by simp)
    · rw [List.eraseP_cons_of_neg (by simpa using hp)] at hx
      rcases List.mem_cons.mp hx with rfl | hx2
      · exact Bool.not_eq_true _ |>.mp hp
      · exact ih (List.pairwise_cons.mp hu).2 x hx2

theorem KeyUnique_addEntry (l : List ACLEntry) (e : ACLEntry) (h : KeyUnique l) :
    KeyUnique (l.eraseP (fun y => y.equalTagID e) ++ [e]) := by
  unfold KeyUnique at h ⊢
  rw [List.pairwise_append]
  refine ⟨h.sublist (List.eraseP_sublist l), List.pairwise_singleton _ _, ?_⟩
  intro x hx y hy
  rcases List.mem_singleton.mp hy with rfl
  exact no_match_in_eraseP y l h x hx

theorem KeyUnique_addSeq (es : List ACLEntry) :
    ∀ a : ACL, KeyUnique a.Entries → KeyUnique (addSeq a es).Entries := by
  induction es with
  | nil => intro a h; exact h
  | cons e es ih =>
    intro a h
    simp only [addSeq, List.foldl_cons]
    refine ih _ ?_
    rw [AddEntry_entries]
    exact KeyUnique_addEntry _ _ h

theorem EntryExists_ne_neg_one_iff (a : ACL) (e : ACLEntry) :
    a.EntryExists e ≠ -1 ↔ ∃ x ∈ a.Entries, x.equalTagID e = true := by
  unfold ACL.EntryExists
  cases hfx : a.Entries.findIdx? (fun x => x.equalTagID e) with
  | none =>
    simp only [hfx, ne_eq, not_true_eq_false, false_iff, not_exists]
    intro x hx
    exact absurd hx.2 (by simpa using List.findIdx?_eq_none_iff.mp hfx x hx.1)
  | some n =>
    simp only [hfx]
    constructor
    · intro _
      obtain ⟨hlt, hp, _⟩ := List.findIdx?_eq_some_iff_getElem.mp hfx
      exact ⟨a.Entries[n], List.getElem_mem hlt, hp⟩
    · intro _
      omega

theorem filter_addEntry (l : List ACLEntry) (e : ACLEntry) (h : KeyUnique l) :
    (l.eraseP (fun x => x.equalTagID e) ++ [e]).filter (fun x => x.equalTagID e) = [e] := by
  rw [List.filter_append]
  have h1 : (l.eraseP (fun x => x.equalTagID e)).filter (fun x => x.equalTagID e) = [] := by
    rw [List.filter_eq_nil_iff]
    intro x hx
    simp [no_match_in_eraseP e l h x hx]
  rw [h1]
  simp [List.filter, ACLEntry.equalTagID_refl]

/-- C3: starting from an empty ACL, any AddEntry sequence keeps (tag, id)
keys unique; AddEntry never returns an error, removes the key-equal entry
before appending (leaving the count unchanged when one existed), and the
stored permission afterwards is exactly the new entry's. -/
theorem addEntry_uniqueness (v : Nat) (es : List ACLEntry) (e : ACLEntry) (a : ACL)
    (ha : a = addSeq { Version := v, Entries := [] } es) :
    List.Pairwise (fun x y => x.equalTagID y = false) a.Entries ∧
    (a.AddEntry e).2 = none ∧
    (a.AddEntry e).1.Entries = a.Entries.eraseP (fun x => x.equalTagID e) ++ [e] ∧
    (a.EntryExists e ≠ -1 → (a.AddEntry e).1.Entries.length = a.Entries.length) ∧
    (a.AddEntry e).1.Entries.filter (fun x => x.equalTagID e) = [e] := by
  have hu : KeyUnique a.Entries := by
    rw [ha]
    exact KeyUnique_addSeq es _ (by exact List.Pairwise.nil)
  refine ⟨hu, rfl, AddEntry_entries _ _, ?_, ?_⟩
  · intro hex
    rw [AddEntry_entries]
    obtain ⟨x, hx, hpx⟩ := (EntryExists_ne_neg_one_iff _ _).mp hex
    have hl := @List.length_eraseP_add_one ACLEntry (fun y => y.equalTagID e) a.Entries x hx hpx
    simp only [List.length_append, List.length_cons, List.length_nil]
    omega
  · rw [AddEntry_entries]
    exact filter_addEntry _ _ hu

theorem addEntry_uniqueness_witness :
    (ACL.AddEntry (addSeq { Version := 2, Entries := [] } [NewEntry 8 5556 7, NewEntry 1 1000 6])
      (NewEntry 8 5556 5)).1.Entries.filter
        (fun x => x.equalTagID (NewEntry 8 5556 5)) = [NewEntry 8 5556 5] ∧
    (ACL.AddEntry (addSeq { Version := 2, Entries := [] } [NewEntry 8 5556 7, NewEntry 1 1000 6])
      (NewEntry 8 5556 5)).1.Entries.length =
      (addSeq { Version := 2, Entries := [] } [NewEntry 8 5556 7, NewEntry 1 1000 6]).Entries.length := by
  have h := addEntry_uniqueness 2 [NewEntry 8 5556 7, NewEntry 1 1000 6] (NewEntry 8 5556 5) _ rfl
  exact ⟨h.2.2.2.2, h.2.2.2.1 (by decide)⟩

theorem ACLEntry.Equal_eq_true_iff (x y : ACLEntry) : x.Equal y = true ↔ x = y := by
  cases x
  cases y
  simp only [ACLEntry.Equal, Bool.and_eq_true, beq_iff_eq, ACLEntry.mk.injEq]
  tauto

theorem entriesPointwiseEq_eq_true_iff :
    ∀ (xs ys : List ACLEntry), xs.length = ys.length →
      (entriesPointwiseEq xs ys = true ↔ xs = ys) := by
  intro xs
  induction xs with
  | nil =>
    intro ys hl
    cases ys
    · simp [entriesPointwiseEq]
    · simp at hl
  | cons x xs ih =>
    intro ys hl
    cases ys with
    | nil => simp at hl
    | cons y ys =>
      simp only [entriesPointwiseEq, Bool.and_eq_true, ACLEntry.Equal_eq_true_iff,
        List.cons.injEq]
      rw [ih ys (by simpa using hl)]

/-- C6, amended: Equal returns true iff versions match, lengths match and the
tag-sorted entry lists coincide; when the version and length guards pass both
receivers are left canonically sorted (the sort happens in place, not on
temporary copies), and when a guard fails both are returned untouched. -/
theorem acl_equal_characterization (a b : ACL) :
    ((ACL.Equal a b).1 = true ↔
      (a.Version = b.Version ∧ a.Entries.length = b.Entries.length ∧
        a.Entries.insertionSort tagLE = b.Entries.insertionSort tagLE)) ∧
    (a.Version = b.Version → a.Entries.length = b.Entries.length →
      (ACL.Equal a b).2.1.Entries = a.Entries.insertionSort tagLE ∧
      (ACL.Equal a b).2.2.Entries = b.Entries.insertionSort tagLE) ∧
    (¬(a.Version = b.Version ∧ a.Entries.length = b.Entries.length) →
      (ACL.Equal a b).2.1 = a ∧ (ACL.Equal a b).2.2 = b) := by
  unfold ACL.Equal
  by_cases hc : a.Entries.length = b.Entries.length ∧ a.Version = b.Version
  · rw [if_neg (by simp [hc.1, hc.2])]
    dsimp only
    refine ⟨?_, fun _ _ => ⟨rfl, rfl⟩, fun hn => absurd ⟨hc.2, hc.1⟩ hn⟩
    rw [entriesPointwiseEq_eq_true_iff _ _ (by simp [ACL.sort, hc.1])]
    constructor
    · intro hs
      exact ⟨hc.2, hc.1, hs⟩
    · intro hs
      exact hs.2.2
  · rw [if_pos (by simpa using Decidable.not_and_iff_or_not.mp hc)]
    refine ⟨?_, ?_, fun _ => ⟨rfl, rfl⟩⟩
    · constructor
      · intro hf
        exact absurd hf (by simp)
      · intro hs
        exact absurd ⟨hs.2.1, hs.1⟩ hc
    · intro h1 h2
      exact absurd ⟨h2, h1⟩ hc

/-- C6 counterexample: Equal sorts the receivers in place (a's stored order
changes), and two ACLs holding the same entries in different insertion order
compare false when the reordered entries share a tag. -/
theorem acl_equal_mutates_and_order_sensitive :
    ((ACL.Equal { Version := 2, Entries := [NewEntry 8 1 1, NewEntry 1 2 2] }
        { Version := 2, Entries := [NewEntry 8 1 1, NewEntry 1 2 2] }).2.1.Entries ≠
      [NewEntry 8 1 1, NewEntry 1 2 2]) ∧
    ((ACL.Equal { Version := 2, Entries := [NewEntry 2 1 1, NewEntry 2 2 1] }
        { Version := 2, Entries := [NewEntry 2 2 1, NewEntry 2 1 1] }).1 = false) := by
  constructor
  · decide
  · decide

theorem acl_equal_characterization_witness :
    (ACL.Equal { Version := 2, Entries := [NewEntry 8 1 1, NewEntry 1 2 2] }
      { Version := 2, Entries := [NewEntry 1 2 2, NewEntry 8 1 1] }).1 = true :=
  (acl_equal_characterization { Version := 2, Entries := [NewEntry 8 1 1, NewEntry 1 2 2] }
    { Version := 2, Entries := [NewEntry 1 2 2, NewEntry 8 1 1] }).1.mpr
    ⟨rfl, rfl, by decide⟩

/-- C7: the permission string round trip holds for every value 0..7. -/
theorem perm_string_roundtrip (p : Nat) (h : p < 8) :
    PermStringToUint (PermUintToString p) = Except.ok p := by
  interval_cases p <;> rfl

theorem perm_string_roundtrip_witness :
    PermStringToUint (PermUintToString 5) = Except.ok 5 :=
  perm_string_roundtrip 5 (by norm_num)

/-- C8: bootstrapping the Load-initialized ACL (version 2, no entries) with
stat-supplied uid, gid and mode yields exactly the four canonical entries,
with the maximum 32-bit value as the mask/other sentinel id. -/
theorem bootstrap_entries (uid gid mode : Nat) :
    (ACL.bootstrapACL { Version := 2, Entries := [] } uid gid mode).Version = 2 ∧
    (ACL.bootstrapACL { Version := 2, Entries := [] } uid gid mode).Entries =
      [NewEntry TAG_ACL_USER_OBJ uid ((mode >>> 6) &&& 7),
       NewEntry TAG_ACL_GROUP_OBJ gid ((mode >>> 3) &&& 7),
       NewEntry TAG_ACL_OTHER 4294967295 (mode &&& 7),
       NewEntry TAG_ACL_MASK 4294967295 7] :=
  ⟨rfl, rfl⟩

/-- C9: an entry with any 16-bit tag and permission and any 32-bit id
round-trips through its 8-byte record without validation or masking. -/
theorem entry_serialize_parse_roundtrip (tag perm id : Nat) (h1 : tag < 65536)
    (h2 : perm < 65536) (h3 : id < 4294967296) :
    ACLEntry.parse (ACLEntry.ToByteSlice (NewEntry tag id perm)) =
      Except.ok (NewEntry tag id perm, []) := by
  have h := ACLEntry.parse_toByteSlice_append (NewEntry tag id perm) [] ⟨h1, h2, h3⟩
  simpa using h

theorem entry_serialize_parse_roundtrip_witness :
    ACLEntry.parse (ACLEntry.ToByteSlice (NewEntry 65535 4294967295 65531)) =
      Except.ok (NewEntry 65535 4294967295 65531, []) :=
  entry_serialize_parse_roundtrip 65535 65531 4294967295 (by norm_num) (by norm_num)
    (by norm_num)
